import Mathlib

/-!
Shallow embedding of the dice-betting simulator (src/main.rs).

Randomness is embedded as an explicit stream of die-pair draws
(the global thread RNG of the program): `Rng := Nat → Nat × Nat`,
each element being the two values drawn by one call to `Dice::roll`.
Stateful functions take an `Rng` and return the remaining stream.

Floating-point payout statistics: every intermediate value of the
program's `f64` computation here is a sum of small nonnegative
integers followed by a single division, so the computation is
embedded over `ℚ`; the single inexact point, `0.0 / 0.0 = NaN` on an
empty sample list, is embedded as `Option.none`.
-/

abbrev Rng := Nat → Nat × Nat

/-- Stream after one draw has been consumed. -/
def Rng.tail (g : Rng) : Rng := fun n => g (n + 1)

structure Dice where
  d1 : Nat
  d2 : Nat
deriving DecidableEq, Repr

/-- Rust `Dice::new`: stores the smaller face first. -/
def Dice.new (a b : Nat) : Dice :=
  if a ≤ b then ⟨a, b⟩ else ⟨b, a⟩

/-- Rust `Dice::roll`: draws two faces from the RNG and normalizes. -/
def Dice.roll (g : Rng) : Dice × Rng :=
  (Dice.new (g 0).1 (g 0).2, Rng.tail g)

/-- Rust `Dice::sum`. -/
def Dice.sum (d : Dice) : Nat := d.d1 + d.d2

inductive Power
  | None
  | Reroll
  | FlipOne
deriving DecidableEq, Repr

/-- Rust `Dice::modify`. -/
def Dice.modify (d : Dice) (p : Power) (g : Rng) : Dice × Rng :=
  match p with
  | Power.None => (d, g)
  | Power.Reroll => Dice.roll g
  | Power.FlipOne =>
    match d.d1 with
    | 1 | 2 | 3 => (Dice.new 4 d.d2, g)
    | _ => (d, g)

/-- Rust `Dice::gold`. -/
def Dice.gold (d : Dice) (bet : Nat) : Nat :=
  if bet ≤ d.sum then bet else 2

/-- Running (sum, count) accumulator of the `Average::average` fold:
enumerate the items, pair each with its one-based position, and fold,
keeping the running sum and the latest position. -/
def sumCount (l : List ℚ) : ℚ × ℚ :=
  ((l.enum).map (fun p => ((p.1 : ℚ) + 1, p.2))).foldl
    (fun acc p => (acc.1 + p.2, p.1)) ((0 : ℚ), (0 : ℚ))

/-- Rust `Average::average`: streaming mean, dividing once at the end.
Division of the zero sum by the zero count (empty input) is `f64`
`0.0/0.0 = NaN`, embedded as `Option.none`. -/
def average (l : List ℚ) : Option ℚ :=
  if (sumCount l).2 = 0 then Option.none
  else Option.some ((sumCount l).1 / (sumCount l).2)

/-- A strategy decision function `choose_power(bet, dice) -> Power`,
given access to the ambient RNG stream like every function of the
program. -/
abbrev Chooser := Nat → Dice → Rng → Power × Rng

/-- Rust `NoPower::choose_power`. -/
def NoPower.choose_power : Chooser := fun _bet _dice g => (Power.None, g)

/-- Rust `AlwaysFlip::choose_power`. -/
def AlwaysFlip.choose_power : Chooser := fun _bet _dice g => (Power.FlipOne, g)

/-- Rust `RerollIfLosing::choose_power`. -/
def RerollIfLosing.choose_power : Chooser := fun bet dice g =>
  if dice.sum < bet then (Power.Reroll, g) else (Power.None, g)

/-- Rust `RerollIfLosingOrFlip::choose_power`. -/
def RerollIfLosingOrFlip.choose_power : Chooser := fun bet dice g =>
  if bet ≤ dice.sum then (Power.None, g)
  else
    let fg := dice.modify Power.FlipOne g
    if bet ≤ fg.1.sum then (Power.FlipOne, fg.2) else (Power.Reroll, fg.2)

/-- Rust `Strategy::outcome` (the shared default method), parameterized
by the decision function. -/
def outcome (choose : Chooser) (bet : Nat) (g : Rng) : Nat × Rng :=
  let dg := Dice.roll g
  let pg := choose bet dg.1 dg.2
  let mg := dg.1.modify pg.1 pg.2
  (mg.1.gold bet, mg.2)

/-- The sample sequence `(0..trials).map(|_| Self::outcome(bet) as f64)`
of `Strategy::avg_outcome`, in generation order. -/
def runTrials (choose : Chooser) (bet : Nat) : Nat → Rng → List ℚ × Rng
  | 0, g => ([], g)
  | n + 1, g =>
    let og := outcome choose bet g
    let rg := runTrials choose bet n og.2
    ((og.1 : ℚ) :: rg.1, rg.2)

/-- One averaged entry per bet of the given list, threading the RNG. -/
def avgBets (choose : Chooser) (trials : Nat) :
    List Nat → Rng → List (Option ℚ) × Rng
  | [], g => ([], g)
  | bet :: bets, g =>
    let sg := runTrials choose bet trials g
    let rg := avgBets choose trials bets sg.2
    (average sg.1 :: rg.1, rg.2)

/-- Rust `Strategy::avg_outcome`: one mean per bet in `2..=12`. -/
def avg_outcome (choose : Chooser) (trials : Nat) (g : Rng) :
    List (Option ℚ) × Rng :=
  avgBets choose trials (List.range' 2 11) g

/-- Modelled from the spec: the naive mean of a materialized sample
list — the sum of the list divided by its length. -/
def naiveAverage (l : List ℚ) : ℚ := l.sum / (l.length : ℚ)

/-! Helper lemmas about `Dice`. -/

lemma Dice.new_d1_le_d2 (a b : Nat) :
    (Dice.new a b).d1 ≤ (Dice.new a b).d2 := by
  unfold Dice.new
  split <;> simp <;> omega

lemma Dice.new_comm (a b : Nat) : Dice.new a b = Dice.new b a := by
  unfold Dice.new
  split <;> split <;> simp only [Dice.mk.injEq] <;> omega

lemma Dice.sum_new (a b : Nat) : (Dice.new a b).sum = a + b := by
  unfold Dice.new Dice.sum
  split <;> simp <;> omega

lemma modify_flipOne (d : Dice) (g : Rng) :
    d.modify Power.FlipOne g =
      (if d.d1 = 1 ∨ d.d1 = 2 ∨ d.d1 = 3 then Dice.new 4 d.d2 else d, g) := by
  rcases d with ⟨d1, d2⟩
  rcases d1 with _ | _ | _ | _ | n <;> simp [Dice.modify] <;> omega

/-- C1: for a Dice with both faces in the range 1..6 and a bet in 2..12,
gold returns the bet exactly when the face sum reaches the bet, and the
constant 2 otherwise. -/
theorem gold_spec (a b bet : Nat) (ha1 : 1 ≤ a) (ha6 : a ≤ 6)
    (hb1 : 1 ≤ b) (hb6 : b ≤ 6) (h2 : 2 ≤ bet) (h12 : bet ≤ 12) :
    (bet ≤ a + b → (Dice.new a b).gold bet = bet) ∧
    (a + b < bet → (Dice.new a b).gold bet = 2) := by
  unfold Dice.gold
  rw [Dice.sum_new]
  constructor <;> intro h
  · rw [if_pos h]
  · rw [if_neg (by omega)]

theorem gold_spec_witness :
    (4 ≤ 2 + 3 → (Dice.new 2 3).gold 4 = 4) ∧
    (2 + 3 < 4 → (Dice.new 2 3).gold 4 = 2) :=
  gold_spec 2 3 4 (by decide) (by decide) (by decide) (by decide)
    (by decide) (by decide)

/-- C2: RerollIfLosingOrFlip picks None when already winning, else
FlipOne when flipping alone reaches a win, else Reroll; in particular at
bet 7 on Dice(2,3) it picks FlipOne. -/
theorem rerollIfLosingOrFlip_spec (bet : Nat) (d : Dice) (g : Rng) :
    (RerollIfLosingOrFlip.choose_power bet d g).1 =
      (if bet ≤ d.sum then Power.None
       else if bet ≤ ((d.modify Power.FlipOne g).1).sum then Power.FlipOne
       else Power.Reroll) ∧
    (RerollIfLosingOrFlip.choose_power 7 (Dice.new 2 3) g).1 = Power.FlipOne := by
  constructor
  · unfold RerollIfLosingOrFlip.choose_power
    rw [modify_flipOne]
    dsimp only
    split_ifs <;> rfl
  · rfl

/-- C4: with both faces in 1..6 and the dice normalized, FlipOne
replaces the lower die by 4 exactly when it shows at most 3, otherwise
leaves the dice unchanged; concrete instances included. -/
theorem modify_flipOne_spec (d : Dice) (g : Rng)
    (hn : d.d1 ≤ d.d2) (h1 : 1 ≤ d.d1) (h6 : d.d2 ≤ 6) :
    ((d.modify Power.FlipOne g).1 =
      if d.d1 ≤ 3 then Dice.new 4 d.d2 else d) ∧
    ((Dice.new 1 5).modify Power.FlipOne g).1 = Dice.new 4 5 ∧
    ((Dice.new 3 3).modify Power.FlipOne g).1 = Dice.new 3 4 ∧
    (((Dice.new 3 3).modify Power.FlipOne g).1).sum = 7 ∧
    ((Dice.new 4 6).modify Power.FlipOne g).1 = Dice.new 4 6 := by
  refine ⟨?_, rfl, rfl, rfl, rfl⟩
  rw [modify_flipOne]
  split_ifs with hA hB
  · rfl
  · exfalso; omega
  · exfalso; omega
  · rfl

theorem modify_flipOne_spec_witness :
    (((Dice.new 2 5).modify Power.FlipOne (fun _ => (1, 1))).1 =
      if (Dice.new 2 5).d1 ≤ 3 then Dice.new 4 (Dice.new 2 5).d2
      else Dice.new 2 5) ∧
    ((Dice.new 1 5).modify Power.FlipOne (fun _ => (1, 1))).1 = Dice.new 4 5 ∧
    ((Dice.new 3 3).modify Power.FlipOne (fun _ => (1, 1))).1 = Dice.new 3 4 ∧
    (((Dice.new 3 3).modify Power.FlipOne (fun _ => (1, 1))).1).sum = 7 ∧
    ((Dice.new 4 6).modify Power.FlipOne (fun _ => (1, 1))).1 = Dice.new 4 6 :=
  modify_flipOne_spec (Dice.new 2 5) (fun _ => (1, 1)) (by decide) (by decide)
    (by decide)

/-- C5: every Dice built by new, roll, or modify of a normalized Dice is
normalized (first stored face at most the second), and new is
order-invariant, with equal sums. -/
theorem dice_normalized (a b : Nat) (d : Dice) (p : Power) (g : Rng)
    (hd : d.d1 ≤ d.d2) :
    ((Dice.new a b).d1 ≤ (Dice.new a b).d2) ∧
    (((Dice.roll g).1).d1 ≤ ((Dice.roll g).1).d2) ∧
    (((d.modify p g).1).d1 ≤ ((d.modify p g).1).d2) ∧
    Dice.new a b = Dice.new b a ∧
    (Dice.new a b).sum = (Dice.new b a).sum := by
  refine ⟨Dice.new_d1_le_d2 a b, Dice.new_d1_le_d2 _ _, ?_,
    Dice.new_comm a b, by rw [Dice.new_comm]⟩
  cases p
  · exact hd
  · exact Dice.new_d1_le_d2 _ _
  · rw [modify_flipOne]
    split_ifs
    · exact Dice.new_d1_le_d2 _ _
    · exact hd

theorem dice_normalized_witness :
    ((Dice.new 5 1).d1 ≤ (Dice.new 5 1).d2) ∧
    (((Dice.roll (fun _ => (6, 2))).1).d1 ≤ ((Dice.roll (fun _ => (6, 2))).1).d2) ∧
    ((((Dice.new 2 5).modify Power.FlipOne (fun _ => (6, 2))).1).d1 ≤
      (((Dice.new 2 5).modify Power.FlipOne (fun _ => (6, 2))).1).d2) ∧
    Dice.new 5 1 = Dice.new 1 5 ∧
    (Dice.new 5 1).sum = (Dice.new 1 5).sum :=
  dice_normalized 5 1 (Dice.new 2 5) Power.FlipOne (fun _ => (6, 2)) (by decide)

/-- C8: all four decision functions are pure and deterministic: the
chosen Power does not depend on the RNG stream, and the stream is
returned unconsumed. -/
theorem choose_power_pure (bet : Nat) (d : Dice) (g g' : Rng) :
    NoPower.choose_power bet d g = ((NoPower.choose_power bet d g').1, g) ∧
    RerollIfLosing.choose_power bet d g =
      ((RerollIfLosing.choose_power bet d g').1, g) ∧
    AlwaysFlip.choose_power bet d g = ((AlwaysFlip.choose_power bet d g').1, g) ∧
    RerollIfLosingOrFlip.choose_power bet d g =
      ((RerollIfLosingOrFlip.choose_power bet d g').1, g) := by
  refine ⟨rfl, ?_, rfl, ?_⟩
  · unfold RerollIfLosing.choose_power
    split_ifs <;> rfl
  · unfold RerollIfLosingOrFlip.choose_power
    rw [modify_flipOne d g, modify_flipOne d g']
    dsimp only
    split_ifs <;> rfl

/-- C9: applying FlipOne never decreases the face sum of a normalized
Dice with faces in 1..6. -/
theorem modify_flipOne_sum_mono (d : Dice) (g : Rng)
    (hn : d.d1 ≤ d.d2) (h1 : 1 ≤ d.d1) (h6 : d.d2 ≤ 6) :
    d.sum ≤ ((d.modify Power.FlipOne g).1).sum := by
  rw [modify_flipOne]
  split_ifs with h
  · show d.sum ≤ (Dice.new 4 d.d2).sum
    rw [Dice.sum_new]
    unfold Dice.sum
    omega
  · exact le_refl _

theorem modify_flipOne_sum_mono_witness :
    (Dice.new 2 5).sum ≤
      (((Dice.new 2 5).modify Power.FlipOne (fun _ => (1, 1))).1).sum :=
  modify_flipOne_sum_mono (Dice.new 2 5) (fun _ => (1, 1)) (by decide)
    (by decide) (by decide)

/-! Helper lemmas about the streaming average. -/

lemma foldl_enumFrom (l : List ℚ) (k : Nat) (s t : ℚ) :
    ((List.enumFrom k l).map (fun p => ((p.1 : ℚ) + 1, p.2))).foldl
      (fun acc p => (acc.1 + p.2, p.1)) (s, t)
    = (s + l.sum, if l.isEmpty then t else ((k + l.length : Nat) : ℚ)) := by
  induction l generalizing k s t with
  | nil => simp
  | cons a l ih =>
    simp only [List.enumFrom, List.map_cons, List.foldl_cons, List.sum_cons,
      List.isEmpty_cons, List.length_cons]
    rw [ih]
    cases hl : l.isEmpty with
    | true =>
      rw [List.isEmpty_iff] at hl
      subst hl
      simp only [List.isEmpty_nil, if_true, List.sum_nil, List.length_nil,
        Bool.false_eq_true, if_false, Prod.mk.injEq]
      constructor
      · ring
      · push_cast
        ring
    | false =>
      simp only [hl, Bool.false_eq_true, if_false, Prod.mk.injEq]
      constructor
      · ring
      · congr 1
        omega

lemma sumCount_eq (l : List ℚ) :
    sumCount l = (l.sum, if l.isEmpty then 0 else (l.length : ℚ)) := by
  unfold sumCount
  rw [show l.enum = List.enumFrom 0 l from rfl, foldl_enumFrom]
  simp

lemma average_eq (l : List ℚ) (h : l ≠ []) :
    average l = Option.some (l.sum / (l.length : ℚ)) := by
  have he : l.isEmpty = false := by
    cases l with
    | nil => exact absurd rfl h
    | cons a t => rfl
  have hne : (l.length : ℚ) ≠ 0 := by
    have h0 : l.length ≠ 0 := by simpa [List.length_eq_zero] using h
    exact_mod_cast h0
  unfold average
  rw [sumCount_eq, he]
  simp only [Bool.false_eq_true, if_false]
  rw [if_neg hne]

/-- C6: on every nonempty sample list, the streaming average (running
sum and count, one final division) agrees with the naive average, the
sum of the materialized list divided by its length. -/
theorem average_eq_naiveAverage (l : List ℚ) (h : l ≠ []) :
    average l = Option.some (naiveAverage l) := by
  rw [average_eq l h]
  rfl

theorem average_eq_naiveAverage_witness :
    average [(1 : ℚ), 2, 6] = Option.some (naiveAverage [(1 : ℚ), 2, 6]) :=
  average_eq_naiveAverage [(1 : ℚ), 2, 6] (by simp)

/-! Helper lemmas about trial running and per-bet averaging. -/

lemma runTrials_succ (choose : Chooser) (bet n : Nat) (g : Rng) :
    runTrials choose bet (n + 1) g =
      (((outcome choose bet g).1 : ℚ) ::
        (runTrials choose bet n (outcome choose bet g).2).1,
       (runTrials choose bet n (outcome choose bet g).2).2) := rfl

lemma avgBets_cons (choose : Chooser) (trials bet : Nat) (bets : List Nat)
    (g : Rng) :
    avgBets choose trials (bet :: bets) g =
      (average (runTrials choose bet trials g).1 ::
        (avgBets choose trials bets (runTrials choose bet trials g).2).1,
       (avgBets choose trials bets (runTrials choose bet trials g).2).2) := rfl

lemma runTrials_length (choose : Chooser) (bet n : Nat) (g : Rng) :
    (runTrials choose bet n g).1.length = n := by
  induction n generalizing g with
  | zero => rfl
  | succ n ih =>
    rw [runTrials_succ]
    simp [ih]

lemma avgBets_length (choose : Chooser) (trials : Nat) (bets : List Nat)
    (g : Rng) :
    (avgBets choose trials bets g).1.length = bets.length := by
  induction bets generalizing g with
  | nil => rfl
  | cons b bs ih =>
    rw [avgBets_cons]
    simp [ih]

lemma avgBets_getD (choose : Chooser) (trials : Nat) (bets : List Nat)
    (g : Rng) (i : Nat) (h : i < bets.length) :
    ∃ g', (avgBets choose trials bets g).1.getD i Option.none
      = average (runTrials choose (bets.getD i 0) trials g').1 := by
  induction bets generalizing g i with
  | nil => simp at h
  | cons b bs ih =>
    rcases i with _ | i
    · exact ⟨g, by rw [avgBets_cons]; rfl⟩
    · obtain ⟨g', hg⟩ :=
        ih ((runTrials choose b trials g).2) i (by simpa using h)
      refine ⟨g', ?_⟩
      rw [avgBets_cons]
      simpa using hg

/-- C3: for any strategy and any positive trial count, avg_outcome
yields exactly 11 entries, the entry at index i belonging to bet 2 + i
(bets ascending 2..12), each entry being the arithmetic mean — sum
divided by the trial count — of a run of exactly that many outcome
payout samples. -/
theorem avg_outcome_spec (choose : Chooser) (trials : Nat) (g : Rng)
    (h : 1 ≤ trials) :
    ((avg_outcome choose trials g).1).length = 11 ∧
    ∀ i, i < 11 →
      ∃ g', ((avg_outcome choose trials g).1).getD i Option.none =
          Option.some
            (((runTrials choose (2 + i) trials g').1).sum / (trials : ℚ)) ∧
        ((runTrials choose (2 + i) trials g').1).length = trials := by
  constructor
  · unfold avg_outcome
    rw [avgBets_length]
    rfl
  · intro i hi
    have hb : ∀ j, j < 11 → (List.range' 2 11).getD j 0 = 2 + j := by decide
    obtain ⟨g', hg⟩ :=
      avgBets_getD choose trials (List.range' 2 11) g i (by simpa using hi)
    refine ⟨g', ?_, runTrials_length _ _ _ _⟩
    have hlen := runTrials_length choose (2 + i) trials g'
    have hnil : (runTrials choose (2 + i) trials g').1 ≠ [] := by
      intro hcon
      rw [hcon] at hlen
      simp at hlen
      omega
    unfold avg_outcome
    rw [hg, hb i hi, average_eq _ hnil, hlen]

theorem avg_outcome_spec_witness :
    ((avg_outcome NoPower.choose_power 1 (fun _ => (1, 1))).1).length = 11 ∧
    ∀ i, i < 11 →
      ∃ g', ((avg_outcome NoPower.choose_power 1
            (fun _ => (1, 1))).1).getD i Option.none =
          Option.some
            (((runTrials NoPower.choose_power (2 + i) 1 g').1).sum / ((1 : Nat) : ℚ)) ∧
        ((runTrials NoPower.choose_power (2 + i) 1 g').1).length = 1 :=
  avg_outcome_spec NoPower.choose_power 1 (fun _ => (1, 1)) (by decide)

/-! Helper lemmas for the NoPower strategy at bet 2. -/

lemma outcome_noPower_bet2 (g : Rng) :
    (outcome NoPower.choose_power 2 g).1 = 2 := by
  show ((Dice.roll g).1.gold 2) = 2
  unfold Dice.gold
  split_ifs <;> rfl

lemma runTrials_noPower_bet2 (n : Nat) (g : Rng) :
    (runTrials NoPower.choose_power 2 n g).1 = List.replicate n (2 : ℚ) := by
  induction n generalizing g with
  | zero => rfl
  | succ n ih =>
    rw [runTrials_succ, List.replicate_succ]
    rw [outcome_noPower_bet2, ih]
    norm_num

/-- C7: under NoPower at bet 2 every single trial pays exactly 2, and
for any positive trial count the reported mean for bet 2 (the first
entry of avg_outcome) is exactly 2. -/
theorem noPower_bet2_exact (trials : Nat) (g g' : Rng) (h : 1 ≤ trials) :
    (outcome NoPower.choose_power 2 g').1 = 2 ∧
    ((avg_outcome NoPower.choose_power trials g).1).getD 0 Option.none =
      Option.some 2 := by
  refine ⟨outcome_noPower_bet2 g', ?_⟩
  have hrange : List.range' 2 11 = 2 :: List.range' 3 10 := by decide
  unfold avg_outcome
  rw [hrange, avgBets_cons]
  show average (runTrials NoPower.choose_power 2 trials g).1 = Option.some 2
  rw [runTrials_noPower_bet2]
  have hne : List.replicate trials (2 : ℚ) ≠ [] := by
    intro hcon
    have hlen := congrArg List.length hcon
    rw [List.length_replicate, List.length_nil] at hlen
    omega
  rw [average_eq _ hne]
  have ht : ((trials : ℚ)) ≠ 0 := Nat.cast_ne_zero.mpr (by omega)
  rw [List.sum_replicate, List.length_replicate, nsmul_eq_mul]
  rw [mul_comm, mul_div_assoc, div_self ht, mul_one]

theorem noPower_bet2_exact_witness :
    (outcome NoPower.choose_power 2 (fun _ => (3, 4))).1 = 2 ∧
    ((avg_outcome NoPower.choose_power 1 (fun _ => (1, 1))).1).getD 0
      Option.none = Option.some 2 :=
  noPower_bet2_exact 1 (fun _ => (1, 1)) (fun _ => (3, 4)) (by decide)

/-! Helper lemma for zero trials. -/

lemma avgBets_zero_trials (choose : Chooser) (bets : List Nat) (g : Rng) :
    (avgBets choose 0 bets g).1 = List.replicate bets.length Option.none := by
  induction bets generalizing g with
  | nil => rfl
  | cons b bs ih =>
    rw [avgBets_cons, List.length_cons, List.replicate_succ]
    have h0 : (runTrials choose b 0 g).1 = [] := rfl
    rw [h0, ih]
    have hnil : average [] = Option.none := by
      unfold average sumCount
      norm_num
    rw [hnil]

/-- C10: avg_outcome does not validate its trial count: at zero trials
it raises no error and yields 11 entries, each the NaN result of
dividing the zero running sum by the zero running count of an empty
sample run. -/
theorem avg_outcome_zero_trials (choose : Chooser) (g : Rng) :
    (avg_outcome choose 0 g).1 = List.replicate 11 Option.none ∧
    sumCount [] = (0, 0) ∧
    (∀ bet, (runTrials choose bet 0 g).1 = []) := by
  refine ⟨?_, rfl, fun bet => rfl⟩
  unfold avg_outcome
  rw [avgBets_zero_trials]
  rfl
